import Mathlib

/-!
Verification of the tree-generator script `Script/genetrate_db_json.py`.

The script builds a random tree of nodes and serialises it to JSON.  We give a
shallow embedding of the script:

* the ambient randomness (`uuid.uuid4()` draws, `random.choice`,
  `random.random() < 0.7`) is modelled by explicit streams passed as
  parameters: `uuid : Nat → String` is the stream of uuid draws (consumed via
  an explicit counter, one increment per `uuid4()` call), `pick : Nat → Nat`
  gives the index drawn by `random.choice` at loop iteration `k` (used modulo
  the list length, so every possible uniform draw is covered), and
  `promote : Nat → Bool` is the outcome of the `random.random() < 0.7` test at
  iteration `k`;
* the in-place mutation `parent["children"].append(child)` is modelled by the
  functional update `addChildNode` / `addChildList`, which appends the child
  to every node whose id matches the chosen parent id (with collision-free
  uuids, i.e. an injective `uuid` stream, exactly one node matches);
* the `while` loop of `build_tree` is modelled by a `step` function on an
  explicit state `BState` and the recursive driver `build_loop`;
* `json.dump` followed by `json.load` is modelled at the level of the JSON
  value tree: `node_to_json` builds the JSON value the script writes, and
  `flatten_json` is `flatten_tree` run on parsed JSON values (dict access of
  the `"children"` key).
-/

/-- A node of the generated tree: the dict produced by `make_node`
(`type`, `id`, `parentId`, `value`, `isDeleted`, `children`). -/
inductive Node : Type where
  | mk : String → String → Option String → String → Bool → List Node → Node
deriving Inhabited

/-- The `"type"` field. -/
def Node.type : Node → String
  | .mk t _ _ _ _ _ => t

/-- The `"id"` field. -/
def Node.id : Node → String
  | .mk _ i _ _ _ _ => i

/-- The `"parentId"` field. -/
def Node.parentId : Node → Option String
  | .mk _ _ p _ _ _ => p

/-- The `"value"` field. -/
def Node.value : Node → String
  | .mk _ _ _ v _ _ => v

/-- The `"isDeleted"` field. -/
def Node.isDeleted : Node → Bool
  | .mk _ _ _ _ d _ => d

/-- The `"children"` field. -/
def Node.children : Node → List Node
  | .mk _ _ _ _ _ cs => cs

/-- All fields of a node except `children`: `addChildNode` below only ever
changes the `children` field, so this projection is invariant under it. -/
def Node.core (n : Node) : String × String × Option String × String × Bool :=
  (n.type, n.id, n.parentId, n.value, n.isDeleted)

-- CONFIG constants of the script.
def MIN_NODES : Int := 10
def MAX_NODES : Int := 1000000
def DEFAULT_NODES : Int := 10

set_option linter.unusedVariables false

/-- `make_node(node_id, parent_id, value, is_deleted)`.  `uuid` is the stream
of `uuid4()` draws and `ctr` the index of the next unconsumed draw; the result
pairs the node with the updated counter.  A `none` or `""` argument is falsy in
Python, so `node_id or str(uuid.uuid4())` and
`value or f"Node {uuid.uuid4().hex[:8]}"` fall back to a fresh draw exactly in
those cases.  The `is_deleted` parameter is accepted and ignored, as in the
source; `isDeleted` is the literal `False`. -/
def make_node (uuid : Nat → String) (ctr : Nat)
    (node_id parent_id value : Option String) (is_deleted : Option Bool) :
    Node × Nat :=
  let idp : String × Nat :=
    match node_id with
    | none => (uuid ctr, ctr + 1)
    | some s => if s = "" then (uuid ctr, ctr + 1) else (s, ctr)
  let valp : String × Nat :=
    match value with
    | none => ("Node " ++ (uuid idp.2).take 8, idp.2 + 1)
    | some s =>
        if s = "" then ("Node " ++ (uuid idp.2).take 8, idp.2 + 1)
        else (s, idp.2)
  (Node.mk "node" idp.1 parent_id valp.1 false [], valp.2)

/-- `flatten_tree(data)`: preorder list of every node reachable from the
top-level list through `children` links (the script's `recurse`). -/
def flatten_tree : List Node → List Node
  | [] => []
  | .mk t i p v d cs :: ns =>
      .mk t i p v d cs :: (flatten_tree cs ++ flatten_tree ns)

/-- Numeric value of a list of decimal digit characters. -/
def digitsVal (cs : List Char) : Nat :=
  cs.foldl (fun n c => 10 * n + (c.toNat - 48)) 0

/-- Model of Python `int(s)`: an optional sign followed by at least one
decimal digit parses to the signed value, anything else raises `ValueError`
(modelled by `none`).  Python additionally strips surrounding whitespace and
allows underscore digit separators; such inputs parse to the same value and
are immaterial to the claims below. -/
def py_int (s : String) : Option Int :=
  match s.data with
  | '-' :: rest =>
      if rest.isEmpty then none
      else if rest.all (fun c => c.isDigit) then some (-(digitsVal rest : Int))
      else none
  | '+' :: rest =>
      if rest.isEmpty then none
      else if rest.all (fun c => c.isDigit) then some ((digitsVal rest : Int))
      else none
  | cs =>
      if cs.isEmpty then none
      else if cs.all (fun c => c.isDigit) then some ((digitsVal cs : Int))
      else none

/-- Effective count `n` computed by `main` from `sys.argv[1]`:
`int(...)` failure (modelled by `py_int`) falls back to the default,
otherwise the parsed value is clamped by `max(MIN_NODES, min(n, MAX_NODES))`;
an absent argument uses the default and is then (vacuously) clamped. -/
def effective_n (argv1 : Option String) : Int :=
  match argv1 with
  | none => max MIN_NODES (min DEFAULT_NODES MAX_NODES)
  | some s =>
      match py_int s with
      | some k => max MIN_NODES (min k MAX_NODES)
      | none => DEFAULT_NODES

mutual

/-- Functional model of the mutation `parent["children"].append(child)`:
append `c` to the children of every node with id `pid` (descending into the
whole subtree).  With collision-free uuids exactly one node of the structure
has id `pid`, so this coincides with the single in-place append the script
performs. -/
def addChildNode (pid : String) (c : Node) : Node → Node
  | .mk t i p v d cs =>
      .mk t i p v d (addChildList pid c cs ++ if i = pid then [c] else [])

/-- `addChildNode` mapped over a list of sibling nodes. -/
def addChildList (pid : String) (c : Node) : List Node → List Node
  | [] => []
  | n :: ns => addChildNode pid c n :: addChildList pid c ns

end

/-- State of `build_tree`'s while loop: `k` counts the iterations performed
(indexing the `pick`/`promote` streams), `ctr` is the uuid counter,
`eligible` holds the ids of the nodes in the Python list `nodes` (the
eligible-parent candidates), `all_ids` the ids of the nodes in `all_nodes`
in creation order, and `roots` is the list `[root]` the function returns,
with all mutations applied. -/
structure BState : Type where
  k : Nat
  ctr : Nat
  eligible : List String
  all_ids : List String
  roots : List Node

/-- State after `root = make_node(value="Root"); nodes = [root];
all_nodes = [root]`. -/
def init_state (uuid : Nat → String) : BState :=
  let r := make_node uuid 0 none none (some "Root") none
  { k := 0, ctr := r.2, eligible := [r.1.id], all_ids := [r.1.id],
    roots := [r.1] }

/-- One iteration of the while-loop body: pick a parent from `nodes`
(`random.choice`, modelled by the `pick` stream taken modulo the list
length), create the child via `make_node(parent_id=parent["id"])`, append it
to the parent's children and to `all_nodes`, and promote it into `nodes`
exactly when `random.random() < 0.7` (the `promote` stream). -/
def step (uuid : Nat → String) (pick : Nat → Nat) (promote : Nat → Bool)
    (s : BState) : BState :=
  let pid := s.eligible.getD (pick s.k % s.eligible.length) ""
  let c := make_node uuid s.ctr none (some pid) none none
  { k := s.k + 1
    ctr := c.2
    eligible := s.eligible ++ if promote s.k then [c.1.id] else []
    all_ids := s.all_ids ++ [c.1.id]
    roots := addChildList pid c.1 s.roots }

/-- The while loop: `while len(all_nodes) < total_nodes: ...`. -/
def build_loop (uuid : Nat → String) (pick : Nat → Nat)
    (promote : Nat → Bool) (total : Int) (s : BState) : BState :=
  if (s.all_ids.length : Int) < total then
    build_loop uuid pick promote total (step uuid pick promote s)
  else s
termination_by (total - s.all_ids.length).toNat
decreasing_by
  simp only [step, List.length_append, List.length_cons, List.length_nil]
  omega

/-- `build_tree(total_nodes)`: run the loop from the initial state and return
`[root]`. -/
def build_tree (uuid : Nat → String) (pick : Nat → Nat)
    (promote : Nat → Bool) (total_nodes : Int) : List Node :=
  (build_loop uuid pick promote total_nodes (init_state uuid)).roots

/-- JSON values, as produced by `json.dump` / consumed by `json.load`
(numbers never occur in the generated document, so they are omitted). -/
inductive JVal : Type where
  | null : JVal
  | bool : Bool → JVal
  | str : String → JVal
  | arr : List JVal → JVal
  | obj : List (String × JVal) → JVal
deriving Inhabited

/-- Serialisation of an `Option String` field (`parentId`). -/
def optToJson : Option String → JVal
  | none => JVal.null
  | some s => JVal.str s

mutual

/-- The JSON object `json.dump` writes for one node dict. -/
def node_to_json : Node → JVal
  | .mk t i p v d cs =>
      JVal.obj [("type", JVal.str t), ("id", JVal.str i),
        ("parentId", optToJson p), ("value", JVal.str v),
        ("isDeleted", JVal.bool d), ("children", JVal.arr (list_to_json cs))]

/-- The JSON array `json.dump` writes for a list of node dicts. -/
def list_to_json : List Node → List JVal
  | [] => []
  | n :: ns => node_to_json n :: list_to_json ns

end

/-- Dictionary lookup in a parsed JSON object (Python `d[key]`). -/
def jlookup (key : String) : List (String × JVal) → Option JVal
  | [] => none
  | kv :: rest => if kv.1 = key then some kv.2 else jlookup key rest

/-- `node["children"]` on a parsed JSON value (the list the script's
`recurse` iterates over; non-objects and missing keys yield `[]`, which never
happens on documents the script writes). -/
def jchildren : JVal → List JVal
  | JVal.obj fs =>
      match jlookup "children" fs with
      | some (JVal.arr xs) => xs
      | _ => []
  | _ => []

/-- Number of nodes of the structure `ns` whose id is `pid`. -/
def cntId (pid : String) (ns : List Node) : Nat :=
  (flatten_tree ns).countP (fun n => decide (n.id = pid))

/-- The ids of all nodes of a structure, in preorder. -/
def idsOf (ns : List Node) : List String := (flatten_tree ns).map Node.id

/-- The data-structure invariant maintained by the while loop of
`build_tree`. -/
structure LoopInv (uuid : Nat → String) (s : BState) : Prop where
  root_shape : ∃ cs, s.roots = [Node.mk "node" (uuid 0) none "Root" false cs]
  nodup : (idsOf s.roots).Nodup
  fresh : ∀ i ∈ idsOf s.roots, ∃ j, j < s.ctr ∧ i = uuid j
  elig_sub : ∀ i ∈ s.eligible, i ∈ idsOf s.roots
  elig_ne : s.eligible ≠ []
  root_elig : uuid 0 ∈ s.eligible
  all_perm : s.all_ids.Perm (idsOf s.roots)
  links : ∀ p ∈ flatten_tree s.roots, ∀ x ∈ p.children,
    x.parentId = some p.id
  root_count : (flatten_tree s.roots).countP
    (fun n => decide (n.parentId = none)) = 1
  clean : ∀ n ∈ flatten_tree s.roots, n.isDeleted = false ∧ n.type = "node"

/-- The shape part of the loop invariant: it holds for every realisation of
the randomness, with no collision-freedom assumption on the uuid stream. -/
structure ShapeInv (uuid : Nat → String) (s : BState) : Prop where
  root_shape : ∃ cs, s.roots = [Node.mk "node" (uuid 0) none "Root" false cs]
  clean : ∀ n ∈ flatten_tree s.roots, n.isDeleted = false ∧ n.type = "node"

/-- The loop state after `k` iterations of the while-loop body. -/
def states (uuid : Nat → String) (pick : Nat → Nat) (promote : Nat → Bool)
    (k : Nat) : BState :=
  (step uuid pick promote)^[k] (init_state uuid)

/-- A concrete collision-free uuid stream used to witness the theorems:
the n-th draw is the string of n+1 copies of the letter u. -/
def uuidD (n : Nat) : String := String.mk (List.replicate (n + 1) 'u')

/-- A concrete realisation of the `random.choice` draws. -/
def pickD (k : Nat) : Nat := 0

/-- A concrete realisation of the promotion draws (always below 0.7). -/
def promoteD (k : Nat) : Bool := true

theorem jlookup_sizeOf {key : String} :
    ∀ {fs : List (String × JVal)} {v : JVal},
      jlookup key fs = some v → sizeOf v < sizeOf fs := by
  intro fs
  induction fs with
  | nil => intro v h; simp [jlookup] at h
  | cons kv rest ih =>
      intro v h
      simp only [jlookup] at h
      by_cases hk : kv.1 = key
      · simp [hk] at h
        subst h
        rcases kv with ⟨k2, v2⟩
        simp
        omega
      · simp [hk] at h
        have := ih h
        simp
        omega

theorem jchildren_sizeOf_le (j : JVal) : sizeOf (jchildren j) ≤ sizeOf j := by
  rcases j with _ | b | s | xs | fs
  · simp [jchildren]
  · simp [jchildren]
  · simp [jchildren]
  · simp [jchildren]
  · simp only [jchildren]
    rcases h : jlookup "children" fs with _ | v
    · simp
    · rcases v with _ | b | s | xs | fs2
      · simp
      · simp
      · simp
      · have := jlookup_sizeOf h
        simp at this ⊢
        omega
      · simp

/-- `flatten_tree` run on the parsed JSON document: only the `"children"`
key of each element is consulted, exactly as in the script. -/
def flatten_json : List JVal → List JVal
  | [] => []
  | j :: js => j :: (flatten_json (jchildren j) ++ flatten_json js)
termination_by js => sizeOf js
decreasing_by
  · have := jchildren_sizeOf_le j
    simp
    omega
  · simp

/-- Look a node up by id in a flattened node list (`find?` keeps the first
match; ids are unique in the structures the script builds). -/
def lookup_node (fl : List Node) (i : String) : Option Node :=
  fl.find? (fun n => n.id = i)

/-- Follow `parentId` links from `n` through the flattened list `fl`,
for at most `fuel` steps; returns the parentless node reached, if any. -/
def chase (fl : List Node) : Nat → Node → Option Node
  | fuel, n =>
      match n.parentId with
      | none => some n
      | some p =>
          match fuel with
          | 0 => none
          | fuel' + 1 =>
              match lookup_node fl p with
              | none => none
              | some m => chase fl fuel' m

/-- Preorder traversal recording the depth of every node (the root list is at
depth `d`, children one deeper). -/
def flatten_depth (d : Nat) : List Node → List (Node × Nat)
  | [] => []
  | .mk t i p v dd cs :: ns =>
      (Node.mk t i p v dd cs, d) ::
        (flatten_depth (d + 1) cs ++ flatten_depth d ns)

@[simp] theorem Node.type_mk (t i : String) (p : Option String) (v : String)
    (d : Bool) (cs : List Node) : (Node.mk t i p v d cs).type = t := rfl

@[simp] theorem Node.id_mk (t i : String) (p : Option String) (v : String)
    (d : Bool) (cs : List Node) : (Node.mk t i p v d cs).id = i := rfl

@[simp] theorem Node.parentId_mk (t i : String) (p : Option String)
    (v : String) (d : Bool) (cs : List Node) :
    (Node.mk t i p v d cs).parentId = p := rfl

@[simp] theorem Node.value_mk (t i : String) (p : Option String) (v : String)
    (d : Bool) (cs : List Node) : (Node.mk t i p v d cs).value = v := rfl

@[simp] theorem Node.isDeleted_mk (t i : String) (p : Option String)
    (v : String) (d : Bool) (cs : List Node) :
    (Node.mk t i p v d cs).isDeleted = d := rfl

@[simp] theorem Node.children_mk (t i : String) (p : Option String)
    (v : String) (d : Bool) (cs : List Node) :
    (Node.mk t i p v d cs).children = cs := rfl

theorem Node.core_def (n : Node) :
    n.core = (n.type, n.id, n.parentId, n.value, n.isDeleted) := rfl

@[simp] theorem flatten_tree_nil : flatten_tree [] = [] := by
  simp [flatten_tree]

theorem flatten_tree_cons (n : Node) (ns : List Node) :
    flatten_tree (n :: ns) = n :: (flatten_tree n.children ++ flatten_tree ns) := by
  rcases n with ⟨t, i, p, v, d, cs⟩
  simp [flatten_tree]

theorem flatten_tree_append (l1 l2 : List Node) :
    flatten_tree (l1 ++ l2) = flatten_tree l1 ++ flatten_tree l2 := by
  induction l1 with
  | nil => simp
  | cons n ns ih => simp [flatten_tree_cons, ih]

theorem mem_flatten_cons {x : Node} (n : Node) (ns : List Node) :
    x ∈ flatten_tree (n :: ns) ↔
      x = n ∨ x ∈ flatten_tree n.children ∨ x ∈ flatten_tree ns := by
  rw [flatten_tree_cons]
  simp

@[simp] theorem addChildList_nil (pid : String) (c : Node) :
    addChildList pid c [] = [] := rfl

@[simp] theorem addChildList_cons (pid : String) (c n : Node) (ns : List Node) :
    addChildList pid c (n :: ns) = addChildNode pid c n :: addChildList pid c ns := rfl

@[simp] theorem addChildNode_core (pid : String) (c n : Node) :
    (addChildNode pid c n).core = n.core := by
  rcases n with ⟨t, i, p, v, d, cs⟩
  rfl

@[simp] theorem addChildNode_id (pid : String) (c n : Node) :
    (addChildNode pid c n).id = n.id := by
  rcases n with ⟨t, i, p, v, d, cs⟩
  rfl

@[simp] theorem addChildNode_parentId (pid : String) (c n : Node) :
    (addChildNode pid c n).parentId = n.parentId := by
  rcases n with ⟨t, i, p, v, d, cs⟩
  rfl

@[simp] theorem addChildNode_isDeleted (pid : String) (c n : Node) :
    (addChildNode pid c n).isDeleted = n.isDeleted := by
  rcases n with ⟨t, i, p, v, d, cs⟩
  rfl

@[simp] theorem addChildNode_type (pid : String) (c n : Node) :
    (addChildNode pid c n).type = n.type := by
  rcases n with ⟨t, i, p, v, d, cs⟩
  rfl

@[simp] theorem addChildNode_value (pid : String) (c n : Node) :
    (addChildNode pid c n).value = n.value := by
  rcases n with ⟨t, i, p, v, d, cs⟩
  rfl

theorem addChildNode_children (pid : String) (c n : Node) :
    (addChildNode pid c n).children =
      addChildList pid c n.children ++ if n.id = pid then [c] else [] := by
  rcases n with ⟨t, i, p, v, d, cs⟩
  rfl

theorem mem_addChildList {x : Node} (pid : String) (c : Node) (l : List Node) :
    x ∈ addChildList pid c l ↔ ∃ y ∈ l, x = addChildNode pid c y := by
  induction l with
  | nil => simp
  | cons n ns ih => simp [ih]

theorem cntId_nil (pid : String) : cntId pid [] = 0 := by
  simp [cntId]

theorem cntId_cons (pid : String) (n : Node) (ns : List Node) :
    cntId pid (n :: ns) =
      (if n.id = pid then 1 else 0) + cntId pid n.children + cntId pid ns := by
  simp [cntId, flatten_tree_cons, List.countP_cons, List.countP_append]
  by_cases h : n.id = pid
  · simp [h]
    omega
  · simp [h]

theorem flatten_tree_singleton {c : Node} (hc : c.children = []) :
    flatten_tree [c] = [c] := by
  rw [flatten_tree_cons, hc]
  simp

theorem flatten_addChildList_core (pid : String) (c : Node)
    (hc : c.children = []) :
    ∀ ns : List Node,
      ((flatten_tree (addChildList pid c ns)).map Node.core : Multiset _) =
        ((flatten_tree ns).map Node.core : Multiset _) +
          Multiset.replicate (cntId pid ns) c.core := by
  intro ns
  induction ns using flatten_tree.induct with
  | case1 => simp [cntId_nil]
  | case2 t i p v d cs ns ihcs ihns =>
      rw [addChildList_cons, flatten_tree_cons, addChildNode_children]
      simp only [Node.children_mk, Node.id_mk]
      rw [flatten_tree_append, flatten_tree_cons, cntId_cons]
      simp only [Node.id_mk, Node.children_mk]
      by_cases h : i = pid
      · rw [if_pos h, if_pos h, flatten_tree_singleton hc]
        simp only [List.map_cons, List.map_append, addChildNode_core,
          List.map_nil]
        simp only [← Multiset.cons_coe, ← Multiset.coe_add, Multiset.coe_nil]
        rw [ihcs, ihns]
        rw [show 1 + cntId pid cs + cntId pid ns =
          (cntId pid cs + cntId pid ns) + 1 by omega]
        rw [Multiset.replicate_add, Multiset.replicate_add,
          Multiset.replicate_one]
        simp only [← Multiset.singleton_add]
        abel
      · rw [if_neg h, if_neg h]
        simp only [flatten_tree_nil, List.append_nil, List.map_cons,
          List.map_append, addChildNode_core]
        simp only [← Multiset.cons_coe, ← Multiset.coe_add]
        rw [ihcs, ihns]
        rw [Nat.zero_add, Multiset.replicate_add]
        simp only [← Multiset.singleton_add]
        abel

theorem flatten_addChildList_core_perm (pid : String) (c : Node)
    (hc : c.children = []) (ns : List Node) :
    ((flatten_tree (addChildList pid c ns)).map Node.core).Perm
      ((flatten_tree ns).map Node.core ++
        List.replicate (cntId pid ns) c.core) := by
  rw [← Multiset.coe_eq_coe]
  rw [← Multiset.coe_add, Multiset.coe_replicate]
  exact flatten_addChildList_core pid c hc ns

theorem flatten_addChildList_ids_perm (pid : String) (c : Node)
    (hc : c.children = []) (ns : List Node) :
    ((flatten_tree (addChildList pid c ns)).map Node.id).Perm
      ((flatten_tree ns).map Node.id ++
        List.replicate (cntId pid ns) c.id) := by
  have h := (flatten_addChildList_core_perm pid c hc ns).map
    (fun cr => cr.2.1)
  rw [List.map_map, List.map_append, List.map_map, List.map_replicate] at h
  have he : (fun cr : String × String × Option String × String × Bool =>
      cr.2.1) ∘ Node.core = Node.id := funext fun n => rfl
  rw [he] at h
  exact h

theorem flatten_addChildList_length (pid : String) (c : Node)
    (hc : c.children = []) (ns : List Node) :
    (flatten_tree (addChildList pid c ns)).length =
      (flatten_tree ns).length + cntId pid ns := by
  have h := (flatten_addChildList_core_perm pid c hc ns).length_eq
  simpa using h

theorem flatten_addChildList_countP_core
    (q : String × String × Option String × String × Bool → Bool)
    (pid : String) (c : Node) (hc : c.children = []) (ns : List Node) :
    (flatten_tree (addChildList pid c ns)).countP (fun n => q n.core) =
      (flatten_tree ns).countP (fun n => q n.core) +
        (if q c.core then cntId pid ns else 0) := by
  have h := (flatten_addChildList_core_perm pid c hc ns).countP_eq q
  rw [List.countP_map, List.countP_append, List.countP_map,
    List.countP_replicate] at h
  exact h

theorem mem_flatten_addChildList {x : Node} (pid : String) (c : Node)
    (hc : c.children = []) :
    ∀ ns : List Node, x ∈ flatten_tree (addChildList pid c ns) →
      x = c ∨ ∃ q ∈ flatten_tree ns, x = addChildNode pid c q := by
  intro ns
  induction ns using flatten_tree.induct with
  | case1 => simp
  | case2 t i p v d cs ns ihcs ihns =>
      intro hx
      rw [addChildList_cons, mem_flatten_cons] at hx
      rcases hx with rfl | hx | hx
      · right
        refine ⟨Node.mk t i p v d cs, ?_, rfl⟩
        rw [mem_flatten_cons]
        left
        rfl
      · rw [addChildNode_children] at hx
        rw [flatten_tree_append] at hx
        rcases List.mem_append.1 hx with hx | hx
        · rcases ihcs hx with h | ⟨q, hq, rfl⟩
          · exact Or.inl h
          · right
            refine ⟨q, ?_, rfl⟩
            rw [mem_flatten_cons]
            right; left
            simpa using hq
        · by_cases h : (Node.mk t i p v d cs).id = pid
          · rw [if_pos h, flatten_tree_singleton hc] at hx
            simp at hx
            exact Or.inl hx
          · rw [if_neg h] at hx
            simp at hx
      · rcases ihns hx with h | ⟨q, hq, rfl⟩
        · exact Or.inl h
        · right
          refine ⟨q, ?_, rfl⟩
          rw [mem_flatten_cons]
          right; right
          exact hq

theorem links_addChildList (pid : String) (c : Node) (ns : List Node)
    (hc : c.children = []) (hcp : c.parentId = some pid)
    (H : ∀ p ∈ flatten_tree ns, ∀ x ∈ p.children, x.parentId = some p.id) :
    ∀ p ∈ flatten_tree (addChildList pid c ns), ∀ x ∈ p.children,
      x.parentId = some p.id := by
  intro p hp x hx
  rcases mem_flatten_addChildList pid c hc ns hp with rfl | ⟨q, hq, rfl⟩
  · rw [hc] at hx
    cases hx
  · rw [addChildNode_children] at hx
    rcases List.mem_append.1 hx with hx | hx
    · rcases (mem_addChildList pid c q.children).1 hx with ⟨y, hy, rfl⟩
      rw [addChildNode_parentId, addChildNode_id]
      exact H q hq y hy
    · by_cases h : q.id = pid
      · rw [if_pos h] at hx
        simp at hx
        subst hx
        rw [hcp, addChildNode_id, h]
      · rw [if_neg h] at hx
        cases hx

theorem make_node_child_eval (uuid : Nat → String) (ctr : Nat)
    (pid : String) :
    make_node uuid ctr none (some pid) none none =
      (Node.mk "node" (uuid ctr) (some pid)
        ("Node " ++ (uuid (ctr + 1)).take 8) false [], ctr + 2) := rfl

theorem make_node_root_eval (uuid : Nat → String) :
    make_node uuid 0 none none (some "Root") none =
      (Node.mk "node" (uuid 0) none "Root" false [], 1) := by
  simp [make_node]

theorem getD_mod_mem {l : List String} (h : l ≠ []) (m : Nat) (d : String) :
    l.getD (m % l.length) d ∈ l := by
  have hl : 0 < l.length := List.length_pos.2 h
  have hm : m % l.length < l.length := Nat.mod_lt _ hl
  rw [List.getD_eq_getElem l d hm]
  exact List.getElem_mem hm

theorem countP_eq_one_of_nodup_mem {α : Type} [DecidableEq α] {l : List α}
    {a : α} (hn : l.Nodup) (ha : a ∈ l) :
    l.countP (fun x => decide (x = a)) = 1 := by
  induction l with
  | nil => cases ha
  | cons b l ih =>
      rw [List.countP_cons]
      rcases List.nodup_cons.1 hn with ⟨hb, hl⟩
      rcases List.mem_cons.1 ha with rfl | ha
      · have hz : l.countP (fun x => decide (x = a)) = 0 :=
          List.countP_eq_zero.2 (fun x hx => by
            simp only [decide_eq_true_eq]
            intro he
            exact hb (he ▸ hx))
        simp [hz]
      · have hne : b ≠ a := fun he => hb (he ▸ ha)
        rw [ih hl ha]
        simp [hne]

theorem cntId_eq_countP_idsOf (pid : String) (ns : List Node) :
    cntId pid ns = (idsOf ns).countP (fun i => decide (i = pid)) := by
  rw [idsOf, List.countP_map]
  rfl

theorem LoopInv_init (uuid : Nat → String) : LoopInv uuid (init_state uuid) := by
  have hin : init_state uuid =
      { k := 0, ctr := 1, eligible := [uuid 0], all_ids := [uuid 0],
        roots := [Node.mk "node" (uuid 0) none "Root" false []] } := by
    rw [init_state, make_node_root_eval]
    rfl
  rw [hin]

  have hfl : flatten_tree [Node.mk "node" (uuid 0) none "Root" false []] =
      [Node.mk "node" (uuid 0) none "Root" false []] :=
    flatten_tree_singleton rfl
  constructor
  · exact ⟨[], rfl⟩
  · rw [idsOf, hfl]; simp
  · rw [idsOf, hfl]
    intro i hi
    simp at hi
    refine ⟨0, ?_, hi⟩
    show 0 < 1
    omega
  · rw [idsOf, hfl]
    intro i hi
    simpa using hi
  · simp
  · simp
  · rw [idsOf, hfl]
    simp
  · rw [hfl]
    intro p hp x hx
    simp at hp
    subst hp
    cases hx
  · rw [hfl]
    simp
  · rw [hfl]
    intro n hn
    simp at hn
    subst hn
    simp

theorem addChildNode_mk (pid : String) (c : Node) (t i : String)
    (p : Option String) (v : String) (d : Bool) (cs : List Node) :
    addChildNode pid c (Node.mk t i p v d cs) =
      Node.mk t i p v d (addChildList pid c cs ++ if i = pid then [c] else []) := rfl

theorem LoopInv_step (uuid : Nat → String) (pick : Nat → Nat)
    (promote : Nat → Bool) (hinj : Function.Injective uuid)
    {s : BState} (h : LoopInv uuid s) :
    LoopInv uuid (step uuid pick promote s) := by
  have hpm : s.eligible.getD (pick s.k % s.eligible.length) "" ∈ s.eligible :=
    getD_mod_mem h.elig_ne _ _
  set pid := s.eligible.getD (pick s.k % s.eligible.length) "" with hpid
  set cnode := Node.mk "node" (uuid s.ctr) (some pid)
    ("Node " ++ (uuid (s.ctr + 1)).take 8) false [] with hcnode
  have hstep : step uuid pick promote s =
      { k := s.k + 1, ctr := s.ctr + 2,
        eligible := s.eligible ++ if promote s.k then [uuid s.ctr] else [],
        all_ids := s.all_ids ++ [uuid s.ctr],
        roots := addChildList pid cnode s.roots } := by
    rw [step]
    simp only [← hpid, make_node_child_eval, ← hcnode]
    simp [hcnode]
  have hpi : pid ∈ idsOf s.roots := h.elig_sub _ hpm
  have hcnt : cntId pid s.roots = 1 := by
    rw [cntId_eq_countP_idsOf]
    exact countP_eq_one_of_nodup_mem h.nodup hpi
  have hfreshc : uuid s.ctr ∉ idsOf s.roots := by
    intro hmem
    rcases h.fresh _ hmem with ⟨j, hj, he⟩
    have := hinj he
    omega
  have hperm : (idsOf (addChildList pid cnode s.roots)).Perm
      (idsOf s.roots ++ [uuid s.ctr]) := by
    have hp := flatten_addChildList_ids_perm pid cnode rfl s.roots
    rw [hcnt] at hp
    simpa [idsOf, List.replicate_one] using hp
  rw [hstep]
  refine ⟨?_, ?_, ?_, ?_, ?_, ?_, ?_, ?_, ?_, ?_⟩
  · rcases h.root_shape with ⟨cs, hr⟩
    refine ⟨addChildList pid cnode cs ++ if uuid 0 = pid then [cnode] else [], ?_⟩
    show addChildList pid cnode s.roots = _
    rw [hr, addChildList_cons, addChildList_nil, addChildNode_mk]
  · show (idsOf (addChildList pid cnode s.roots)).Nodup
    rw [hperm.nodup_iff]
    refine List.Nodup.append h.nodup (List.nodup_singleton _) ?_
    exact List.disjoint_singleton.2 hfreshc
  · show ∀ i ∈ idsOf (addChildList pid cnode s.roots), ∃ j, j < s.ctr + 2 ∧ i = uuid j
    intro i hi
    rcases List.mem_append.1 (hperm.mem_iff.1 hi) with hi | hi
    · rcases h.fresh _ hi with ⟨j, hj, he⟩
      exact ⟨j, by omega, he⟩
    · simp at hi
      exact ⟨s.ctr, by omega, hi⟩
  · show ∀ i ∈ s.eligible ++ (if promote s.k then [uuid s.ctr] else []),
      i ∈ idsOf (addChildList pid cnode s.roots)
    intro i hi
    rw [hperm.mem_iff]
    rcases List.mem_append.1 hi with hi | hi
    · exact List.mem_append_left _ (h.elig_sub _ hi)
    · refine List.mem_append_right _ ?_
      by_cases hpr : promote s.k
      · rw [if_pos hpr] at hi
        exact hi
      · rw [if_neg hpr] at hi
        cases hi
  · show s.eligible ++ (if promote s.k then [uuid s.ctr] else []) ≠ []
    intro he
    exact h.elig_ne (List.append_eq_nil.1 he).1
  · exact List.mem_append_left _ h.root_elig
  · show (s.all_ids ++ [uuid s.ctr]).Perm (idsOf (addChildList pid cnode s.roots))
    exact ((h.all_perm.append (List.Perm.refl _)).trans hperm.symm)
  · show ∀ p ∈ flatten_tree (addChildList pid cnode s.roots), ∀ x ∈ p.children,
      x.parentId = some p.id
    exact links_addChildList pid cnode s.roots rfl rfl h.links
  · show (flatten_tree (addChildList pid cnode s.roots)).countP
      (fun n => decide (n.parentId = none)) = 1
    have hq := flatten_addChildList_countP_core
      (fun cr => decide (cr.2.2.1 = none)) pid cnode rfl s.roots
    have hqe : (fun (n : Node) => decide (n.core.2.2.1 = none)) =
        (fun (n : Node) => decide (n.parentId = none)) := funext fun n => rfl
    rw [hqe] at hq
    rw [hq, h.root_count]
    simp [hcnode, Node.core_def]
  · show ∀ n ∈ flatten_tree (addChildList pid cnode s.roots),
      n.isDeleted = false ∧ n.type = "node"
    intro n hn
    rcases mem_flatten_addChildList pid cnode rfl _ hn with rfl | ⟨q, hq, rfl⟩
    · simp [hcnode]
    · rw [addChildNode_isDeleted, addChildNode_type]
      exact h.clean q hq

theorem LoopInv_iterate (uuid : Nat → String) (pick : Nat → Nat)
    (promote : Nat → Bool) (hinj : Function.Injective uuid) (k : Nat) :
    LoopInv uuid ((step uuid pick promote)^[k] (init_state uuid)) := by
  induction k with
  | zero => simpa using LoopInv_init uuid
  | succ n ih =>
      rw [Function.iterate_succ_apply']
      exact LoopInv_step uuid pick promote hinj ih

theorem step_all_ids (uuid : Nat → String) (pick : Nat → Nat)
    (promote : Nat → Bool) (s : BState) :
    (step uuid pick promote s).all_ids = s.all_ids ++ [uuid s.ctr] := by
  simp [step, make_node_child_eval]

theorem step_all_ids_length (uuid : Nat → String) (pick : Nat → Nat)
    (promote : Nat → Bool) (s : BState) :
    (step uuid pick promote s).all_ids.length = s.all_ids.length + 1 := by
  rw [step_all_ids]
  simp

theorem build_loop_eq_iterate (uuid : Nat → String) (pick : Nat → Nat)
    (promote : Nat → Bool) (total : Int) :
    ∀ s : BState, build_loop uuid pick promote total s =
      (step uuid pick promote)^[(total - s.all_ids.length).toNat] s := by
  intro s
  induction s using build_loop.induct uuid pick promote total with
  | case1 s hlt ih =>
      rw [build_loop, if_pos hlt, ih, step_all_ids_length]
      have he : (total - (s.all_ids.length : Int)).toNat =
          (total - ((s.all_ids.length : Int) + 1)).toNat + 1 := by omega
      rw [show ((s.all_ids.length + 1 : Nat) : Int) =
        (s.all_ids.length : Int) + 1 by push_cast; ring]
      rw [he, Function.iterate_succ_apply]
  | case2 s hge =>
      rw [build_loop, if_neg hge]
      have he : (total - (s.all_ids.length : Int)).toNat = 0 := by omega
      rw [he, Function.iterate_zero_apply]

theorem build_loop_all_ids_length (uuid : Nat → String) (pick : Nat → Nat)
    (promote : Nat → Bool) (total : Int) :
    ∀ s : BState, (build_loop uuid pick promote total s).all_ids.length =
      max s.all_ids.length total.toNat := by
  intro s
  induction s using build_loop.induct uuid pick promote total with
  | case1 s hlt ih =>
      rw [build_loop, if_pos hlt, ih, step_all_ids_length]
      omega
  | case2 s hge =>
      rw [build_loop, if_neg hge]
      omega

theorem init_all_ids_length (uuid : Nat → String) :
    (init_state uuid).all_ids.length = 1 := by
  rw [init_state, make_node_root_eval]
  rfl

theorem LoopInv_final (uuid : Nat → String) (pick : Nat → Nat)
    (promote : Nat → Bool) (total : Int)
    (hinj : Function.Injective uuid) :
    LoopInv uuid (build_loop uuid pick promote total (init_state uuid)) := by
  rw [build_loop_eq_iterate]
  exact LoopInv_iterate uuid pick promote hinj _

theorem idsOf_length (ns : List Node) :
    (idsOf ns).length = (flatten_tree ns).length := by
  simp [idsOf]

theorem flatten_build_tree_length (uuid : Nat → String) (pick : Nat → Nat)
    (promote : Nat → Bool) (hinj : Function.Injective uuid) (total : Int) :
    (flatten_tree (build_tree uuid pick promote total)).length =
      max 1 total.toNat := by
  have hI := LoopInv_final uuid pick promote total hinj
  have hlen := build_loop_all_ids_length uuid pick promote total
    (init_state uuid)
  rw [init_all_ids_length] at hlen
  have hp := hI.all_perm.length_eq
  rw [idsOf_length] at hp
  rw [build_tree, ← hp, hlen]

theorem flatten_depth_fst (d : Nat) (ns : List Node) :
    (flatten_depth d ns).map Prod.fst = flatten_tree ns := by
  induction d, ns using flatten_depth.induct with
  | case1 d => simp [flatten_depth]
  | case2 d t i p v dd cs ns ihcs ihns =>
      rw [flatten_depth, flatten_tree]
      simp only [List.map_cons, List.map_append]
      rw [ihcs, ihns]

theorem mem_flatten_depth_fst {n : Node} {d : Nat} {ns : List Node} :
    n ∈ flatten_tree ns ↔ ∃ e, (n, e) ∈ flatten_depth d ns := by
  rw [← flatten_depth_fst d ns]
  constructor
  · intro hn
    rcases List.mem_map.1 hn with ⟨⟨m, e⟩, hm, he⟩
    exact ⟨e, by simpa [← he] using hm⟩
  · rintro ⟨e, he⟩
    exact List.mem_map.2 ⟨(n, e), he, rfl⟩

theorem flatten_depth_parent {n : Node} {e : Nat} :
    ∀ (d : Nat) (ns : List Node), (n, e) ∈ flatten_depth d ns →
      (n ∈ ns ∧ e = d) ∨
        ∃ p pe, (p, pe) ∈ flatten_depth d ns ∧ n ∈ p.children ∧ e = pe + 1 := by
  intro d ns
  induction d, ns using flatten_depth.induct with
  | case1 d => intro hn; simp [flatten_depth] at hn
  | case2 d t i p v dd cs ns ihcs ihns =>
      intro hn
      rw [flatten_depth] at hn
      rcases List.mem_cons.1 hn with he | hn
      · left
        have h1 : n = Node.mk t i p v dd cs := congrArg Prod.fst he
        have h2 : e = d := congrArg Prod.snd he
        exact ⟨by rw [h1]; exact List.mem_cons_self _ _, h2⟩
      · rcases List.mem_append.1 hn with hn | hn
        · rcases ihcs hn with ⟨hmem, he⟩ | ⟨q, qe, hq, hmem, he⟩
          · right
            refine ⟨Node.mk t i p v dd cs, d, ?_, ?_, he⟩
            · rw [flatten_depth]
              exact List.mem_cons_self _ _
            · simpa using hmem
          · right
            refine ⟨q, qe, ?_, hmem, he⟩
            rw [flatten_depth]
            exact List.mem_cons_of_mem _ (List.mem_append_left _ hq)
        · rcases ihns hn with ⟨hmem, he⟩ | ⟨q, qe, hq, hmem, he⟩
          · left
            exact ⟨List.mem_cons_of_mem _ hmem, he⟩
          · right
            refine ⟨q, qe, ?_, hmem, he⟩
            rw [flatten_depth]
            exact List.mem_cons_of_mem _ (List.mem_append_right _ hq)

theorem lookup_node_self {fl : List Node} {p : Node}
    (hnd : (fl.map Node.id).Nodup) (hp : p ∈ fl) :
    lookup_node fl p.id = some p := by
  rcases hf : lookup_node fl p.id with _ | m
  · exfalso
    rw [lookup_node] at hf
    have := List.find?_eq_none.1 hf p hp
    simp at this
  · rw [lookup_node] at hf
    have hm : m ∈ fl := List.mem_of_find?_eq_some hf
    have hid : m.id = p.id := by
      have := List.find?_some hf
      simpa using this
    have : m = p := List.inj_on_of_nodup_map hnd hm hp hid
    rw [this]

theorem chase_of_parent_none {fl : List Node} {n : Node} (fuel : Nat)
    (h : n.parentId = none) : chase fl fuel n = some n := by
  rw [chase, h]

theorem chase_reaches_root {r : Node} (hr : r.parentId = none)
    (hnd : ((flatten_tree [r]).map Node.id).Nodup)
    (hlinks : ∀ p ∈ flatten_tree [r], ∀ x ∈ p.children,
      x.parentId = some p.id) :
    ∀ e : Nat, ∀ n : Node, (n, e) ∈ flatten_depth 0 [r] →
      ∃ fuel, chase (flatten_tree [r]) fuel n = some r := by
  intro e
  induction e using Nat.strong_induction_on with
  | _ e ih =>
      intro n hn
      rcases flatten_depth_parent 0 [r] hn with ⟨hmem, _⟩ | ⟨p, pe, hp, hmem, he⟩
      · have hnr : n = r := by simpa using hmem
        subst hnr
        exact ⟨0, chase_of_parent_none 0 hr⟩
      · have hpfl : p ∈ flatten_tree [r] := by
          rw [mem_flatten_depth_fst (d := 0)]
          exact ⟨pe, hp⟩
        have hpid : n.parentId = some p.id := hlinks p hpfl n hmem
        rcases ih pe (by omega) p hp with ⟨fuel, hch⟩
        refine ⟨fuel + 1, ?_⟩
        rw [chase, hpid]
        simp only [lookup_node_self hnd hpfl]
        exact hch

theorem countP_flatten_split (q : Node → Bool) :
    ∀ ns : List Node, (flatten_tree ns).countP q =
      ns.countP q +
        ((flatten_tree ns).map (fun p => p.children.countP q)).sum := by
  intro ns
  induction ns using flatten_tree.induct with
  | case1 =>
      rw [flatten_tree_nil]
      rfl
  | case2 t i p v d cs ns ihcs ihns =>
      rw [flatten_tree]
      simp only [List.countP_cons, List.countP_append, List.map_cons,
        List.map_append, List.sum_cons, List.sum_append, Node.children_mk]
      rw [ihcs, ihns]
      omega

theorem countP_pos_of_sum_eq_zero {α : Type} {f : α → Nat} :
    ∀ {l : List α}, (l.map f).sum = 0 →
      l.countP (fun a => decide (0 < f a)) = 0 := by
  intro l
  induction l with
  | nil => intro h; simp
  | cons a l ih =>
      intro h
      simp only [List.map_cons, List.sum_cons] at h
      have ha : f a = 0 := by omega
      have hl : (l.map f).sum = 0 := by omega
      rw [List.countP_cons, ih hl, ha]
      simp

theorem countP_pos_of_sum_eq_one {α : Type} {f : α → Nat} :
    ∀ {l : List α}, (l.map f).sum = 1 →
      l.countP (fun a => decide (0 < f a)) = 1 := by
  intro l
  induction l with
  | nil => intro h; simp at h
  | cons a l ih =>
      intro h
      simp only [List.map_cons, List.sum_cons] at h
      rw [List.countP_cons]
      by_cases ha : f a = 0
      · have hl : (l.map f).sum = 1 := by omega
        rw [ih hl, ha]
        simp
      · have ha1 : f a = 1 := by omega
        have hl : (l.map f).sum = 0 := by omega
        rw [countP_pos_of_sum_eq_zero hl, ha1]
        simp

theorem mem_flatten_of_mem_top {x : Node} :
    ∀ {ns : List Node}, x ∈ ns → x ∈ flatten_tree ns := by
  intro ns
  induction ns with
  | nil => intro h; cases h
  | cons n rest ih =>
      intro h
      rw [mem_flatten_cons]
      rcases List.mem_cons.1 h with rfl | h
      · exact Or.inl rfl
      · exact Or.inr (Or.inr (ih h))

theorem mem_flatten_of_mem_children {x : Node} :
    ∀ {ns : List Node} {p : Node}, p ∈ flatten_tree ns →
      x ∈ p.children → x ∈ flatten_tree ns := by
  intro ns
  induction ns using flatten_tree.induct with
  | case1 =>
      intro p hp
      rw [flatten_tree_nil] at hp
      cases hp
  | case2 t i pp v d cs ns ihcs ihns =>
      intro p hp hx
      rw [mem_flatten_cons] at hp ⊢
      rcases hp with rfl | hp | hp
      · right; left
        exact mem_flatten_of_mem_top (by simpa using hx)
      · exact Or.inr (Or.inl (ihcs hp hx))
      · exact Or.inr (Or.inr (ihns hp hx))

theorem countP_id_eq_one {fl : List Node}
    (hnd : (fl.map Node.id).Nodup) {c : Node} (hc : c ∈ fl) :
    fl.countP (fun x => decide (x.id = c.id)) = 1 := by
  have h1 : (fl.map Node.id).countP (fun i => decide (i = c.id)) = 1 :=
    countP_eq_one_of_nodup_mem hnd (List.mem_map_of_mem Node.id hc)
  rw [List.countP_map] at h1
  exact h1

theorem unique_containing_parent {r : Node}
    (hnd : ((flatten_tree [r]).map Node.id).Nodup)
    {c : Node} (hc : c ∈ flatten_tree [r]) (hcr : c.id ≠ r.id) :
    (flatten_tree [r]).countP
      (fun p => p.children.any (fun x => decide (x.id = c.id))) = 1 := by
  have htot : (flatten_tree [r]).countP (fun x => decide (x.id = c.id)) = 1 :=
    countP_id_eq_one hnd hc
  have htop : ([r] : List Node).countP (fun x => decide (x.id = c.id)) = 0 := by
    rw [List.countP_cons]
    have hne : ¬r.id = c.id := fun h => hcr h.symm
    simp [hne]
  have hsplit := countP_flatten_split (fun x => decide (x.id = c.id)) [r]
  rw [htot, htop] at hsplit
  have hsum : ((flatten_tree [r]).map
      (fun p => p.children.countP (fun x => decide (x.id = c.id)))).sum = 1 := by
    omega
  have hcp := countP_pos_of_sum_eq_one hsum
  have hpred : (fun p : Node => decide
      (0 < p.children.countP (fun x => decide (x.id = c.id)))) =
      (fun p : Node => p.children.any (fun x => decide (x.id = c.id))) := by
    funext p
    by_cases h : 0 < p.children.countP (fun x => decide (x.id = c.id))
    · rw [decide_eq_true h]
      rcases List.countP_pos_iff.1 h with ⟨a, ha, hqa⟩
      symm
      rw [List.any_eq_true]
      exact ⟨a, ha, hqa⟩
    · rw [decide_eq_false h]
      symm
      rw [Bool.eq_false_iff]
      intro hany
      rcases List.any_eq_true.1 hany with ⟨a, ha, hqa⟩
      exact h (List.countP_pos_iff.2 ⟨a, ha, hqa⟩)
  rw [hpred] at hcp
  exact hcp

theorem jchildren_node_to_json (n : Node) :
    jchildren (node_to_json n) = list_to_json n.children := by
  rcases n with ⟨t, i, p, v, d, cs⟩
  rfl

theorem flatten_json_list_to_json :
    ∀ ns : List Node,
      flatten_json (list_to_json ns) = (flatten_tree ns).map node_to_json := by
  intro ns
  induction ns using flatten_tree.induct with
  | case1 =>
      rw [flatten_tree_nil]
      rw [show list_to_json [] = [] from rfl]
      rw [flatten_json]
      rfl
  | case2 t i p v d cs ns ihcs ihns =>
      rw [flatten_tree]
      rw [show list_to_json (Node.mk t i p v d cs :: ns) =
        node_to_json (Node.mk t i p v d cs) :: list_to_json ns from rfl]
      rw [flatten_json, jchildren_node_to_json]
      simp only [Node.children_mk, List.map_cons, List.map_append]
      rw [ihcs, ihns]

theorem step_roots (uuid : Nat → String) (pick : Nat → Nat)
    (promote : Nat → Bool) (s : BState) :
    (step uuid pick promote s).roots =
      addChildList (s.eligible.getD (pick s.k % s.eligible.length) "")
        (Node.mk "node" (uuid s.ctr)
          (some (s.eligible.getD (pick s.k % s.eligible.length) ""))
          ("Node " ++ (uuid (s.ctr + 1)).take 8) false []) s.roots := by
  rw [step]
  rw [make_node_child_eval]

theorem step_eligible (uuid : Nat → String) (pick : Nat → Nat)
    (promote : Nat → Bool) (s : BState) :
    (step uuid pick promote s).eligible =
      s.eligible ++ if promote s.k then [uuid s.ctr] else [] := by
  rw [step]
  rw [make_node_child_eval]
  rfl

theorem step_k (uuid : Nat → String) (pick : Nat → Nat)
    (promote : Nat → Bool) (s : BState) :
    (step uuid pick promote s).k = s.k + 1 := rfl

theorem ShapeInv_init (uuid : Nat → String) : ShapeInv uuid (init_state uuid) := by
  have hin : init_state uuid =
      { k := 0, ctr := 1, eligible := [uuid 0], all_ids := [uuid 0],
        roots := [Node.mk "node" (uuid 0) none "Root" false []] } := by
    rw [init_state, make_node_root_eval]
    rfl
  rw [hin]
  constructor
  · exact ⟨[], rfl⟩
  · have hfl : flatten_tree [Node.mk "node" (uuid 0) none "Root" false []] =
        [Node.mk "node" (uuid 0) none "Root" false []] :=
      flatten_tree_singleton rfl
    show ∀ n ∈ flatten_tree [Node.mk "node" (uuid 0) none "Root" false []], _
    rw [hfl]
    intro n hn
    simp at hn
    subst hn
    simp

theorem ShapeInv_step (uuid : Nat → String) (pick : Nat → Nat)
    (promote : Nat → Bool) {s : BState} (h : ShapeInv uuid s) :
    ShapeInv uuid (step uuid pick promote s) := by
  constructor
  · rcases h.root_shape with ⟨cs, hr⟩
    rw [step_roots, hr, addChildList_cons, addChildList_nil, addChildNode_mk]
    exact ⟨_, rfl⟩
  · intro n hn
    rw [step_roots] at hn
    set pid := s.eligible.getD (pick s.k % s.eligible.length) "" with hpid
    set cnode := Node.mk "node" (uuid s.ctr) (some pid)
      ("Node " ++ (uuid (s.ctr + 1)).take 8) false [] with hcnode
    rcases mem_flatten_addChildList pid cnode rfl _ hn with rfl | ⟨q, hq, rfl⟩
    · simp [hcnode]
    · rw [addChildNode_isDeleted, addChildNode_type]
      exact h.clean q hq

theorem ShapeInv_states (uuid : Nat → String) (pick : Nat → Nat)
    (promote : Nat → Bool) (k : Nat) :
    ShapeInv uuid (states uuid pick promote k) := by
  induction k with
  | zero => simpa [states] using ShapeInv_init uuid
  | succ n ih =>
      rw [states, Function.iterate_succ_apply']
      exact ShapeInv_step uuid pick promote ih

theorem ShapeInv_build_tree (uuid : Nat → String) (pick : Nat → Nat)
    (promote : Nat → Bool) (total : Int) :
    ∃ cs, build_tree uuid pick promote total =
      [Node.mk "node" (uuid 0) none "Root" false cs] := by
  have h : ShapeInv uuid (build_loop uuid pick promote total (init_state uuid)) := by
    rw [build_loop_eq_iterate]
    exact ShapeInv_states uuid pick promote _
  exact h.root_shape

theorem clean_build_tree (uuid : Nat → String) (pick : Nat → Nat)
    (promote : Nat → Bool) (total : Int) :
    ∀ n ∈ flatten_tree (build_tree uuid pick promote total),
      n.isDeleted = false ∧ n.type = "node" := by
  have h : ShapeInv uuid (build_loop uuid pick promote total (init_state uuid)) := by
    rw [build_loop_eq_iterate]
    exact ShapeInv_states uuid pick promote _
  exact h.clean

theorem uuidD_injective : Function.Injective uuidD := by
  intro a b h
  have h2 : List.replicate (a + 1) 'u' = List.replicate (b + 1) 'u' :=
    congrArg String.data h
  have h3 := congrArg List.length h2
  simp at h3
  exact h3

theorem states_zero (uuid : Nat → String) (pick : Nat → Nat)
    (promote : Nat → Bool) : states uuid pick promote 0 = init_state uuid := rfl

theorem states_succ (uuid : Nat → String) (pick : Nat → Nat)
    (promote : Nat → Bool) (k : Nat) :
    states uuid pick promote (k + 1) =
      step uuid pick promote (states uuid pick promote k) := by
  rw [states, states, Function.iterate_succ_apply']

theorem states_eligible_sub (uuid : Nat → String) (pick : Nat → Nat)
    (promote : Nat → Bool) :
    ∀ k : Nat,
      (∀ x ∈ (states uuid pick promote k).eligible,
        x ∈ (states uuid pick promote k).all_ids) ∧
      uuid 0 ∈ (states uuid pick promote k).eligible ∧
      (states uuid pick promote k).eligible ≠ [] := by
  intro k
  induction k with
  | zero =>
      rw [states_zero, init_state, make_node_root_eval]
      refine ⟨?_, ?_, ?_⟩
      · intro x hx
        exact hx
      · show uuid 0 ∈ [(Node.mk "node" (uuid 0) none "Root" false [], 1).1.id]
        simp
      · show [(Node.mk "node" (uuid 0) none "Root" false [], 1).1.id] ≠ []
        simp
  | succ n ih =>
      rw [states_succ, step_eligible, step_all_ids]
      refine ⟨?_, ?_, ?_⟩
      · intro x hx
        rcases List.mem_append.1 hx with hx | hx
        · exact List.mem_append_left _ (ih.1 x hx)
        · refine List.mem_append_right _ ?_
          by_cases hpr : promote (states uuid pick promote n).k
          · rw [if_pos hpr] at hx
            exact hx
          · rw [if_neg hpr] at hx
            cases hx
      · exact List.mem_append_left _ ih.2.1
      · intro he
        exact ih.2.2 (List.append_eq_nil.1 he).1

/-- C1: for every target count N with 10 ≤ N ≤ 1,000,000, and for every
realisation of the randomness with collision-free uuid draws, `build_tree N`
produces a structure in which the total number of nodes reachable from the
single root, as counted by `flatten_tree`, is exactly N. -/
theorem C1_build_tree_node_count (uuid : Nat → String) (pick : Nat → Nat)
    (promote : Nat → Bool) (hinj : Function.Injective uuid) (N : Int)
    (h10 : 10 ≤ N) (h1m : N ≤ 1000000) :
    ((flatten_tree (build_tree uuid pick promote N)).length : Int) = N := by
  rw [flatten_build_tree_length uuid pick promote hinj N]
  have h1 : (1 : Nat) ≤ N.toNat := by omega
  rw [max_eq_right h1]
  omega

theorem C1_witness :
    (10 : Int) ≤ 10 ∧ (10 : Int) ≤ 1000000 ∧
    ((flatten_tree (build_tree uuidD pickD promoteD 10)).length : Int) = 10 :=
  ⟨by decide, by decide,
    C1_build_tree_node_count uuidD pickD promoteD uuidD_injective 10
      (by decide) (by decide)⟩

/-- C3: the effective node count used by `main` is the default 10 when the
first CLI argument is absent or unparsable (recovered silently), and
`max(10, min(k, 1000000))` when it parses as the integer k; in particular
"5" yields 10 and "2000000" yields 1,000,000. -/
theorem C3_effective_count :
    effective_n none = 10 ∧
    (∀ s : String, py_int s = none → effective_n (some s) = 10) ∧
    (∀ (s : String) (k : Int), py_int s = some k →
      effective_n (some s) = max 10 (min k 1000000)) ∧
    effective_n (some "5") = 10 ∧
    effective_n (some "2000000") = 1000000 := by
  refine ⟨by decide, ?_, ?_, by decide, by decide⟩
  · intro s h
    simp [effective_n, h, DEFAULT_NODES]
  · intro s k h
    simp [effective_n, h, MIN_NODES, MAX_NODES]

theorem C3_witness :
    py_int "abc" = none ∧ effective_n (some "abc") = 10 ∧
    py_int "2000000" = some 2000000 ∧
    effective_n (some "2000000") = max 10 (min 2000000 1000000) :=
  ⟨by decide, C3_effective_count.2.1 "abc" (by decide), by decide,
    C3_effective_count.2.2.1 "2000000" 2000000 (by decide)⟩

/-- C4: for every target count N ≥ 1 (indeed for every N), `build_tree`
returns a one-element sequence whose single element is the root node, with
`parentId` null and `value` "Root". -/
theorem C4_root_node (uuid : Nat → String) (pick : Nat → Nat)
    (promote : Nat → Bool) (N : Int) (h1 : 1 ≤ N) :
    ∃ r : Node, build_tree uuid pick promote N = [r] ∧
      r.parentId = none ∧ r.value = "Root" := by
  rcases ShapeInv_build_tree uuid pick promote N with ⟨cs, hcs⟩
  exact ⟨_, hcs, rfl, rfl⟩

theorem C4_witness :
    (1 : Int) ≤ 1 ∧
    ∃ r : Node, build_tree uuidD pickD promoteD 1 = [r] ∧
      r.parentId = none ∧ r.value = "Root" :=
  ⟨by decide, C4_root_node uuidD pickD promoteD 1 (by decide)⟩

/-- C6: every node produced by `make_node` or reachable in a structure
produced by `build_tree` has `isDeleted = false`, and the only mutation the
program performs (`addChildNode`) never changes the field. -/
theorem C6_isDeleted_always_false (uuid : Nat → String) (ctr : Nat)
    (node_id parent_id value : Option String) (is_deleted : Option Bool)
    (pick : Nat → Nat) (promote : Nat → Bool) (total : Int) :
    (make_node uuid ctr node_id parent_id value is_deleted).1.isDeleted
        = false ∧
    (∀ n ∈ flatten_tree (build_tree uuid pick promote total),
      n.isDeleted = false) ∧
    (∀ (pid : String) (c n : Node),
      (addChildNode pid c n).isDeleted = n.isDeleted) := by
  refine ⟨rfl, ?_, ?_⟩
  · intro n hn
    exact (clean_build_tree uuid pick promote total n hn).1
  · intro pid c n
    exact addChildNode_isDeleted pid c n

/-- C7: flattening the parsed form of the JSON document written by `main`
yields exactly the node count reported in the confirmation message (the
length of `flatten_tree` applied to the in-memory structure). -/
theorem C7_roundtrip_count (uuid : Nat → String) (pick : Nat → Nat)
    (promote : Nat → Bool) (argv1 : Option String) :
    (flatten_json (list_to_json
        (build_tree uuid pick promote (effective_n argv1)))).length =
      (flatten_tree
        (build_tree uuid pick promote (effective_n argv1))).length := by
  rw [flatten_json_list_to_json, List.length_map]

/-- C8: `build_tree` is total (it is a function in this embedding), and for
every integer argument the flattened node count is `max 1 total_nodes`; for
`total_nodes ≤ 1` the loop body never runs and the result is exactly the
single childless root. -/
theorem C8_total_and_degenerate (uuid : Nat → String) (pick : Nat → Nat)
    (promote : Nat → Bool) (hinj : Function.Injective uuid) (total : Int) :
    (flatten_tree (build_tree uuid pick promote total)).length
        = max 1 total.toNat ∧
    (total ≤ 1 → build_tree uuid pick promote total =
      [Node.mk "node" (uuid 0) none "Root" false []]) := by
  refine ⟨flatten_build_tree_length uuid pick promote hinj total, ?_⟩
  intro hle
  have hcond : ¬ ((((init_state uuid).all_ids.length : Nat) : Int) < total) := by
    rw [init_all_ids_length]
    omega
  rw [build_tree, build_loop, if_neg hcond, init_state, make_node_root_eval]

theorem C8_witness :
    (flatten_tree (build_tree uuidD pickD promoteD 0)).length = 1 ∧
    build_tree uuidD pickD promoteD 0 =
      [Node.mk "node" (uuidD 0) none "Root" false []] := by
  have h := C8_total_and_degenerate uuidD pickD promoteD uuidD_injective 0
  refine ⟨?_, h.2 (by decide)⟩
  rw [h.1]
  decide

/-- C9: `make_node` ignores its `is_deleted` parameter entirely: the result
does not depend on it, and even passing `some true` yields
`isDeleted = false`. -/
theorem C9_is_deleted_ignored (uuid : Nat → String) (ctr : Nat)
    (node_id parent_id value : Option String) (a b : Option Bool) :
    make_node uuid ctr node_id parent_id value a =
      make_node uuid ctr node_id parent_id value b ∧
    (make_node uuid ctr node_id parent_id value
      (some true)).1.isDeleted = false :=
  ⟨rfl, rfl⟩

/-- C10: `make_node` treats a falsy (empty-string) `node_id` or `value`
argument exactly like an absent one: the id is the fresh uuid draw and the
value the fresh placeholder label, never the passed empty string. -/
theorem C10_falsy_arguments (uuid : Nat → String) (ctr : Nat)
    (parent_id : Option String) (is_deleted : Option Bool) :
    make_node uuid ctr (some "") parent_id (some "") is_deleted =
      make_node uuid ctr none parent_id none is_deleted ∧
    (make_node uuid ctr (some "") parent_id (some "") is_deleted).1.id =
      uuid ctr ∧
    (make_node uuid ctr (some "") parent_id (some "") is_deleted).1.value =
      "Node " ++ (uuid (ctr + 1)).take 8 ∧
    (uuid ctr ≠ "" →
      (make_node uuid ctr (some "") parent_id
        (some "") is_deleted).1.id ≠ "") ∧
    (make_node uuid ctr (some "") parent_id
      (some "") is_deleted).1.value ≠ "" := by
  refine ⟨rfl, rfl, rfl, ?_, ?_⟩
  · intro h he
    have hid : (make_node uuid ctr (some "") parent_id
        (some "") is_deleted).1.id = uuid ctr := rfl
    rw [hid] at he
    exact h he
  · intro he
    have hlen := congrArg String.length he
    have hval : (make_node uuid ctr (some "") parent_id
        (some "") is_deleted).1.value =
        "Node " ++ (uuid (ctr + 1)).take 8 := rfl
    rw [hval, String.length_append] at hlen
    have h5 : "Node ".length = 5 := rfl
    have h0 : "".length = 0 := rfl
    omega

theorem C10_witness :
    uuidD 0 ≠ "" ∧
    (make_node uuidD 0 (some "") none (some "") none).1.id ≠ "" ∧
    make_node uuidD 0 (some "") none (some "") none =
      make_node uuidD 0 none none none none :=
  ⟨by decide, (C10_falsy_arguments uuidD 0 none none).2.2.2.1 (by decide),
    (C10_falsy_arguments uuidD 0 none none).1⟩

/-- C2: in every structure returned by `build_tree` (under collision-free
uuid draws) there is exactly one root node (`parentId` null); ids are
pairwise distinct; every child's `parentId` is its parent's id; every
non-root node lies in the children list of exactly one node, whose id its
`parentId` equals; and following `parentId` links from any node terminates
at the root, with no cycle and no cross-links. -/
theorem C2_structural_tree (uuid : Nat → String) (pick : Nat → Nat)
    (promote : Nat → Bool) (hinj : Function.Injective uuid) (total : Int)
    (fl : List Node)
    (hfl : fl = flatten_tree (build_tree uuid pick promote total)) :
    fl.countP (fun n => decide (n.parentId = none)) = 1 ∧
    (fl.map Node.id).Nodup ∧
    (∀ p ∈ fl, ∀ c ∈ p.children, c.parentId = some p.id) ∧
    (∀ c ∈ fl, c.parentId ≠ none →
      fl.countP (fun p => p.children.any (fun x => decide (x.id = c.id))) = 1 ∧
      (∀ p ∈ fl, c.id ∈ p.children.map Node.id →
        c.parentId = some p.id)) ∧
    (∀ n ∈ fl, ∃ fuel r, chase fl fuel n = some r ∧ r.parentId = none ∧
      r ∈ fl ∧ r.value = "Root") := by
  subst hfl
  have hI := LoopInv_final uuid pick promote total hinj
  rcases hI.root_shape with ⟨cs, hroots⟩
  have hbt : build_tree uuid pick promote total =
      [Node.mk "node" (uuid 0) none "Root" false cs] := by
    rw [build_tree, hroots]
  rw [hbt]
  have hnd : ((flatten_tree [Node.mk "node" (uuid 0) none "Root"
      false cs]).map Node.id).Nodup := by
    have h := hI.nodup
    rw [idsOf, hroots] at h
    exact h
  have hlinks : ∀ p ∈ flatten_tree [Node.mk "node" (uuid 0) none "Root"
      false cs], ∀ x ∈ p.children, x.parentId = some p.id := by
    have h := hI.links
    rw [hroots] at h
    exact h
  have hcount : (flatten_tree [Node.mk "node" (uuid 0) none "Root"
      false cs]).countP (fun n => decide (n.parentId = none)) = 1 := by
    have h := hI.root_count
    rw [hroots] at h
    exact h
  have hrmem : Node.mk "node" (uuid 0) none "Root" false cs ∈
      flatten_tree [Node.mk "node" (uuid 0) none "Root" false cs] :=
    mem_flatten_of_mem_top (List.mem_singleton.2 rfl)
  refine ⟨hcount, hnd, hlinks, ?_, ?_⟩
  · intro c hc hcp
    have hne : c.id ≠ (Node.mk "node" (uuid 0) none "Root" false cs).id := by
      intro he
      have : c = Node.mk "node" (uuid 0) none "Root" false cs :=
        List.inj_on_of_nodup_map hnd hc hrmem he
      rw [this] at hcp
      exact hcp rfl
    refine ⟨unique_containing_parent hnd hc hne, ?_⟩
    intro p hp hmem
    rcases List.mem_map.1 hmem with ⟨x, hx, hxid⟩
    have hxfl : x ∈ flatten_tree [Node.mk "node" (uuid 0) none "Root"
        false cs] := mem_flatten_of_mem_children hp hx
    have hxc : x = c := List.inj_on_of_nodup_map hnd hxfl hc hxid
    rw [← hxc]
    exact hlinks p hp x hx
  · intro n hn
    rcases (mem_flatten_depth_fst (d := 0)).1 hn with ⟨e, he⟩
    rcases chase_reaches_root
      (r := Node.mk "node" (uuid 0) none "Root" false cs) rfl hnd hlinks
      e n he with ⟨fuel, hch⟩
    exact ⟨fuel, Node.mk "node" (uuid 0) none "Root" false cs, hch, rfl,
      hrmem, rfl⟩

theorem C2_witness :
    (fun fl : List Node =>
      fl.countP (fun n => decide (n.parentId = none)) = 1 ∧
      (fl.map Node.id).Nodup ∧
      (∀ p ∈ fl, ∀ c ∈ p.children, c.parentId = some p.id) ∧
      (∀ c ∈ fl, c.parentId ≠ none →
        fl.countP
          (fun p => p.children.any (fun x => decide (x.id = c.id))) = 1 ∧
        (∀ p ∈ fl, c.id ∈ p.children.map Node.id →
          c.parentId = some p.id)) ∧
      (∀ n ∈ fl, ∃ fuel r, chase fl fuel n = some r ∧ r.parentId = none ∧
        r ∈ fl ∧ r.value = "Root"))
      (flatten_tree (build_tree uuidD pickD promoteD 3)) :=
  C2_structural_tree uuidD pickD promoteD uuidD_injective 3
    (flatten_tree (build_tree uuidD pickD promoteD 3)) rfl

/-- C5 counterexample: `nodes` is not a strict subset of `all_nodes`
throughout the loop.  After the first iteration of the loop body (with the
promotion draw succeeding), the two collections are equal. -/
theorem C5_counterexample :
    (states uuidD pickD promoteD 1).eligible =
      (states uuidD pickD promoteD 1).all_ids ∧
    ¬ ∃ y ∈ (states uuidD pickD promoteD 1).all_ids,
        y ∉ (states uuidD pickD promoteD 1).eligible := by
  decide

/-- C5 (amended): throughout the build loop the eligible-parent collection
`nodes` is a subset of `all_nodes` (not necessarily strict: they coincide
initially and whenever every promotion draw has succeeded) and always
contains the root; each iteration picks its parent id from `nodes`, creates
exactly one child whose `parentId` is that parent id, appends it to the
parent's children sequence and appends its id to `all_nodes`, and adds the
child to `nodes` exactly when the 0.7-probability promotion draw succeeds. -/
theorem C5_loop_invariants (uuid : Nat → String) (pick : Nat → Nat)
    (promote : Nat → Bool) (k : Nat) :
    (∀ x ∈ (states uuid pick promote k).eligible,
      x ∈ (states uuid pick promote k).all_ids) ∧
    uuid 0 ∈ (states uuid pick promote k).eligible ∧
    ∃ pid ∈ (states uuid pick promote k).eligible, ∃ c : Node,
      c.parentId = some pid ∧ c.children = [] ∧
      (states uuid pick promote (k + 1)).roots =
        addChildList pid c (states uuid pick promote k).roots ∧
      (states uuid pick promote (k + 1)).all_ids =
        (states uuid pick promote k).all_ids ++ [c.id] ∧
      (states uuid pick promote (k + 1)).eligible =
        (states uuid pick promote k).eligible ++
          (if promote (states uuid pick promote k).k then [c.id] else []) := by
  rcases states_eligible_sub uuid pick promote k with ⟨hsub, hroot, hne⟩
  refine ⟨hsub, hroot, ?_⟩
  set s := states uuid pick promote k with hs
  refine ⟨s.eligible.getD (pick s.k % s.eligible.length) "",
    getD_mod_mem hne _ _,
    Node.mk "node" (uuid s.ctr)
      (some (s.eligible.getD (pick s.k % s.eligible.length) ""))
      ("Node " ++ (uuid (s.ctr + 1)).take 8) false [], rfl, rfl, ?_, ?_, ?_⟩
  · rw [states_succ, ← hs, step_roots]
  · rw [states_succ, ← hs, step_all_ids]
    rw [Node.id_mk]
  · rw [states_succ, ← hs, step_eligible]
    rw [Node.id_mk]
